import Mathlib

/-!
Verification development for the pdf-merger repository.

The Python sources are shallowly embedded: filenames are `String`s (worked on
through their underlying `List Char`), filesystem trees are an inductive type,
PDF documents are lists of opaque page identifiers, effects (file existence
checks, the wall clock) are passed explicitly as parameters, and exceptional
control flow is modelled with `Except` / `Option`.
-/

namespace PdfMerger

/-- The character class of the regex in `sanitize_filename`
(`src/utils/file_utils.py`): characters illegal in filenames. -/
def invalidChar (c : Char) : Bool :=
  c = '<' || c = '>' || c = ':' || c = '"' || c = '/' || c = '\\' ||
    c = '|' || c = '?' || c = '*'

/-- First step of `sanitize_filename`: the substitution
with pattern a single illegal character and replacement an underscore. -/
def replaceInvalid (l : List Char) : List Char :=
  l.map fun c => if invalidChar c then '_' else c

/-- Second step of `sanitize_filename`: the substitution collapsing every
maximal run of underscores into a single underscore. -/
def squeezeUnderscores : List Char → List Char
  | [] => []
  | [c] => [c]
  | c :: d :: rest =>
    if c = '_' ∧ d = '_' then squeezeUnderscores (d :: rest)
    else c :: squeezeUnderscores (d :: rest)

/-- The set of characters removed from both ends by the final
step of `sanitize_filename`. -/
def stripChar (c : Char) : Bool := c = '_' || c = ' '

/-- Python string stripping over the two characters underscore and space:
drop the longest run of such characters from the front and from the back. -/
def stripEnds (l : List Char) : List Char :=
  ((l.dropWhile stripChar).reverse.dropWhile stripChar).reverse

/-- List-level body of `sanitize_filename` from `src/utils/file_utils.py`. -/
def sanitizeChars (l : List Char) : List Char :=
  stripEnds (squeezeUnderscores (replaceInvalid l))

/-- The function `sanitize_filename` of `src/utils/file_utils.py`. -/
def sanitize_filename (s : String) : String :=
  String.mk (sanitizeChars s.data)

/-- The constant `PDF_EXTENSION` of `src/config/constants.py`, as characters. -/
def pdfExt : List Char := ['.', 'p', 'd', 'f']

/-- Python lowercasing of a character sequence (ASCII, as all uses here are). -/
def lowerChars (l : List Char) : List Char := l.map Char.toLower

/-- The test made by `ensure_pdf_extension`: the lowercased
name ends with the PDF extension. -/
def endsWithPdfCI (l : List Char) : Bool := decide (pdfExt <:+ lowerChars l)

/-- List-level body of `ensure_pdf_extension` from `src/utils/file_utils.py`. -/
def ensurePdfChars (l : List Char) : List Char :=
  if !endsWithPdfCI l then l ++ pdfExt else l

/-- The function `ensure_pdf_extension` of `src/utils/file_utils.py`. -/
def ensure_pdf_extension (s : String) : String :=
  String.mk (ensurePdfChars s.data)

/-- Index of the last dot in a filename, if any. -/
def rfindDot : List Char → Option Nat
  | [] => none
  | c :: rest =>
    match rfindDot rest with
    | some i => some (i + 1)
    | none => if c = '.' then some 0 else none

/-- Where the `pathlib` suffix of a filename starts: the last dot, provided it
is neither the first nor the last character. -/
def suffixStart (name : List Char) : Option Nat :=
  match rfindDot name with
  | some i => if 0 < i ∧ i + 1 < name.length then some i else none
  | none => none

/-- The `pathlib` stem of a filename: everything before the suffix. -/
def stemOf (name : List Char) : List Char :=
  match suffixStart name with
  | some i => name.take i
  | none => name

/-- The `pathlib` suffix of a filename (its extension, dot included). -/
def suffixOf (name : List Char) : List Char :=
  match suffixStart name with
  | some i => name.drop i
  | none => []

/-- A wall-clock instant, standing for `datetime.now()`. -/
structure Timestamp where
  year : Nat
  month : Nat
  day : Nat
  hour : Nat
  minute : Nat
  second : Nat

/-- Zero-padded two-digit field of `strftime`. -/
def pad2 (n : Nat) : List Char :=
  [Nat.digitChar (n / 10 % 10), Nat.digitChar (n % 10)]

/-- Zero-padded four-digit field of `strftime` (the year field, for the
four-digit years a real clock produces). -/
def pad4 (n : Nat) : List Char :=
  [Nat.digitChar (n / 1000 % 10), Nat.digitChar (n / 100 % 10),
    Nat.digitChar (n / 10 % 10), Nat.digitChar (n % 10)]

/-- Rendering of `TIMESTAMP_PATTERN` from `src/config/constants.py`,
the `strftime` format string of year month day, underscore, hour minute
second. -/
def fmtTimestamp (t : Timestamp) : List Char :=
  pad4 t.year ++ pad2 t.month ++ pad2 t.day ++ ['_'] ++
    pad2 t.hour ++ pad2 t.minute ++ pad2 t.second

/-- The function `ensure_unique_output` of `src/utils/file_utils.py`, on the
final path component. Existence of a path is an effect, passed as the
function `existsAt`; the clock reading is passed as `now`. When the path
exists the result is stem, underscore, timestamp, and the literal constant
`PDF_EXTENSION`. -/
def ensure_unique_output (existsAt : List Char → Bool) (now : Timestamp)
    (path : List Char) : List Char :=
  if !existsAt path then path
  else stemOf path ++ ['_'] ++ fmtTimestamp now ++ pdfExt

/-- Modelled from the spec's words, for comparison with `ensure_unique_output`:
renaming that inserts the timestamp between the stem and the path's own
extension, keeping that extension. -/
def specInsertTimestamp (now : Timestamp) (path : List Char) : List Char :=
  stemOf path ++ ['_'] ++ fmtTimestamp now ++ suffixOf path

/-- The constant `MAX_PREVIEW_FILES` of `src/config/constants.py`. -/
def MAX_PREVIEW_FILES : Nat := 10

/-- A node of a directory tree: a regular file or a subdirectory with its
children. -/
inductive FSNode where
  | file (name : String)
  | dir (name : String) (children : List FSNode)

/-- An entry found somewhere below the scanned folder: the names of the
directories between the folder and the entry, the entry's own name, and
whether it is a regular file. -/
structure FoundEntry where
  dirs : List String
  name : String
  isFile : Bool
deriving DecidableEq

mutual

/-- All entries below one node, each recorded with its ancestor directories. -/
def descNode (pre : List String) : FSNode → List FoundEntry
  | .file n => [⟨pre, n, true⟩]
  | .dir n cs => ⟨pre, n, false⟩ :: descList (pre ++ [n]) cs

/-- All entries below a list of sibling nodes. -/
def descList (pre : List String) : List FSNode → List FoundEntry
  | [] => []
  | x :: xs => descNode pre x ++ descList pre xs

end

/-- The glob pattern of `PdfScanner.scan`: a name matches the
pattern of a star followed by the PDF extension exactly when it ends with
that extension (the match is case-sensitive). -/
def matchesPdfName (name : String) : Bool := decide (pdfExt <:+ name.data)

/-- The entry a direct child of the scanned folder presents. -/
def childEntry : FSNode → FoundEntry
  | .file s => ⟨[], s, true⟩
  | .dir s _ => ⟨[], s, false⟩

/-- Candidate entries of the non-recursive glob: every direct child of the
folder whose name matches the pattern (directories included; the scanner
filters regular files afterwards). -/
def globFlat (root : List FSNode) : List FoundEntry :=
  (root.map childEntry).filter fun e => matchesPdfName e.name

/-- Candidate entries of the recursive glob: every descendant entry whose name
matches the pattern. -/
def globRec (root : List FSNode) : List FoundEntry :=
  (descList [] root).filter fun e => matchesPdfName e.name

/-- The sort key of `PdfScanner.scan`: the lowercased file name (only the
name, not the path), compared lexicographically by code point as Python
compares strings. -/
def lowerName (e : FoundEntry) : List Char := lowerChars e.name.data

/-- The comparison under which `sorted` with that key orders the entries. -/
def nameLe (a b : FoundEntry) : Prop := lowerName a ≤ lowerName b

instance : DecidableRel nameLe :=
  fun a b => inferInstanceAs (Decidable (lowerName a ≤ lowerName b))

instance : IsTotal FoundEntry nameLe :=
  ⟨fun a b => le_total (lowerName a) (lowerName b)⟩

instance : IsTrans FoundEntry nameLe :=
  ⟨fun _ _ _ h h2 => le_trans h h2⟩

/-- The method `PdfScanner.scan` of `src/core/scanner.py`: pick the glob
pattern by the recursion flag, sort the matches by lowercased name
(Python's stable sort is modelled by insertion sort, which agrees with it
up to order of equal keys), and keep the regular files. -/
def scanTree (recursive : Bool) (root : List FSNode) : List FoundEntry :=
  ((if recursive then globRec root else globFlat root).insertionSort
    nameLe).filter (·.isFile)

/-- An input handed to the merge engine: the file's name and, when the file
is readable, its ordered pages (opaque identifiers); `none` stands for a
corrupt or unreadable file, whose open or parse raises. -/
structure InputFile where
  name : String
  pages : Option (List Nat)

/-- The state built by the merge loop, and the fields of `MergeOutcome`
that the embedding tracks: pages written to the accumulating writer, the
running total of pages, and the per-file error reports in order. -/
structure MergeResult where
  outputPages : List Nat
  total_pages : Nat
  errors : List String
deriving DecidableEq

/-- One iteration of the loop of `PdfMergerService.merge`
(`src/core/merger.py`): a readable file appends all its pages and bumps the
total; a failing file is caught, reported, and skipped. -/
def mergeStep (acc : MergeResult) (f : InputFile) : MergeResult :=
  match f.pages with
  | some ps =>
    { acc with
      outputPages := acc.outputPages ++ ps
      total_pages := acc.total_pages + ps.length }
  | none => { acc with errors := acc.errors ++ [f.name] }

/-- The method `PdfMergerService.merge` of `src/core/merger.py` (the loop
and the returned outcome; writing the file and its size are effects outside
the embedding). -/
def mergeFiles (files : List InputFile) : MergeResult :=
  files.foldl mergeStep ⟨[], 0, []⟩

/-- Python truthiness of the optional output name: `None` and the empty
string are falsy. -/
def optTruthy : Option String → Bool
  | none => false
  | some s => !s.isEmpty

/-- The method `MergeOrchestrator._resolve_output_name` of
`src/core/orchestrator.py`: sanitize the user name when one is (truthily)
given, else the folder's name, then guarantee the extension. -/
def resolve_output_name (output_name : Option String) (folderName : String) :
    String :=
  if optTruthy output_name then
    ensure_pdf_extension (sanitize_filename (output_name.getD ""))
  else
    ensure_pdf_extension (sanitize_filename folderName)

/-- The function `limit_preview` of `src/utils/file_utils.py`: walk the
files, stop as soon as the index reaches the limit, collect the names. -/
def limit_preview : List FoundEntry → Nat → List String
  | _, 0 => []
  | [], _ => []
  | f :: rest, k + 1 => f.name :: limit_preview rest k

/-- What the preview-and-merge part of `MergeOrchestrator.execute` does with
the discovered files: the preview shown, whether the more-files suffix is
printed (`ConsoleMessenger.print_files` prints it when the total exceeds the
preview limit), and the full list handed to `PdfMergerService.merge`. -/
structure ExecutePlan where
  preview : List String
  showsMore : Bool
  moreCount : Nat
  mergeInput : List InputFile

/-- Lines 62 to 81 of `src/core/orchestrator.py`, with the discovered files
carrying their readable content so the merge can be composed: the preview is
capped, the suffix is printed exactly when the count exceeds the cap, and
`merge` receives the whole discovered list. -/
def orchestrate (entries : List FoundEntry)
    (content : FoundEntry → Option (List Nat)) : ExecutePlan :=
  { preview := limit_preview entries MAX_PREVIEW_FILES
    showsMore := decide (entries.length > MAX_PREVIEW_FILES)
    moreCount := entries.length - MAX_PREVIEW_FILES
    mergeInput := entries.map fun e => ⟨e.name, content e⟩ }

/-- The exceptions `PdfMergerApp.run` (`src/cli/app.py`) catches around
`orchestrator.execute`. -/
inductive RunError where
  | fileNotFound
  | notADirectory
  | runtimeError
  | keyboardInterrupt
  | unexpected

/-- The exit code computed by `PdfMergerApp.run`: every caught exception
returns 1; a `None` outcome (nothing to merge) and a merge outcome both
return 0. -/
def runExitCode : Except RunError (Option MergeResult) → Nat
  | .error .fileNotFound => 1
  | .error .notADirectory => 1
  | .error .runtimeError => 1
  | .error .keyboardInterrupt => 1
  | .error .unexpected => 1
  | .ok none => 0
  | .ok (some _) => 0

/-- The exit code of `main` in the legacy script `src/pdf_merger.py` when it
runs to an exit without being interrupted: missing folder 1, not a
directory 1, no PDF files found 0, merge saved 0, save failed 1. -/
def legacyMainExit (folderExists : Bool) (isDir : Bool)
    (pdfFiles : List InputFile) (saveOk : Bool) : Nat :=
  if !folderExists then 1
  else if !isDir then 1
  else if pdfFiles.isEmpty then 0
  else if saveOk then 0
  else 1

/-- How an invocation of the legacy script terminates: a normal exit of
`main` with some code, a `KeyboardInterrupt`, or any other exception. -/
inductive LegacyTermination where
  | normal (code : Nat)
  | interrupted
  | unexpectedError

/-- The interrupt handler guarding `main` in `src/pdf_merger.py` (lines 332
to 340): `KeyboardInterrupt` exits with code 0, any other exception with
code 1. -/
def legacyProcessExit : LegacyTermination → Nat
  | .normal c => c
  | .interrupted => 0
  | .unexpectedError => 1

/-! Lemmas about sanitization. -/

/-- Characters survive the underscore-collapsing step only if present before. -/
theorem mem_squeezeUnderscores {c : Char} :
    ∀ {l : List Char}, c ∈ squeezeUnderscores l → c ∈ l := by
  intro l
  induction l with
  | nil => simp [squeezeUnderscores]
  | cons a tail ih =>
    cases tail with
    | nil => simp [squeezeUnderscores]
    | cons d rest =>
      simp only [squeezeUnderscores]
      split
      · intro h
        exact List.mem_cons_of_mem a (ih h)
      · intro h
        rcases List.mem_cons.mp h with h | h
        · simp [h]
        · exact List.mem_cons_of_mem a (ih h)

/-- Characters survive end-stripping only if present before. -/
theorem mem_stripEnds {c : Char} {l : List Char} (h : c ∈ stripEnds l) :
    c ∈ l := by
  unfold stripEnds at h
  rw [List.mem_reverse] at h
  have h2 := List.IsSuffix.mem h (List.dropWhile_suffix stripChar)
  rw [List.mem_reverse] at h2
  exact List.IsSuffix.mem h2 (List.dropWhile_suffix stripChar)

/-- Every character of the replacement step's output is legal. -/
theorem not_invalid_mem_replaceInvalid {c : Char} {l : List Char}
    (h : c ∈ replaceInvalid l) : invalidChar c = false := by
  unfold replaceInvalid at h
  rcases List.mem_map.mp h with ⟨a, _, ha⟩
  by_cases hi : invalidChar a = true
  · simp only [hi, if_true] at ha
    rw [← ha]
    decide
  · simp only [hi, if_false] at ha
    rw [← ha]
    exact Bool.not_eq_true _ ▸ hi

/-- The replacement step fixes strings of legal characters. -/
theorem replaceInvalid_eq_self :
    ∀ {l : List Char}, (∀ c ∈ l, invalidChar c = false) → replaceInvalid l = l := by
  intro l h
  induction l with
  | nil => rfl
  | cons a rest ih =>
    have ha := h a (List.mem_cons_self a rest)
    have hr : ∀ c ∈ rest, invalidChar c = false :=
      fun c hc => h c (List.mem_cons_of_mem a hc)
    simp only [replaceInvalid, List.map_cons, ha, if_false, List.cons.injEq]
    exact ⟨rfl, ih hr⟩

/-- No two adjacent underscores occur in the list. -/
def NoDouble (l : List Char) : Prop :=
  l.Chain' fun a b => ¬(a = '_' ∧ b = '_')

/-- The collapsing step keeps the head of a list that does not start with an
underscore. -/
theorem squeezeUnderscores_head_of_ne (d : Char) (rest : List Char)
    (hd : d ≠ '_') : (squeezeUnderscores (d :: rest)).head? = some d := by
  cases rest with
  | nil => rfl
  | cons e rest2 =>
    simp only [squeezeUnderscores]
    rw [if_neg fun hc => hd hc.1]
    rfl

/-- The collapsing step leaves no adjacent pair of underscores. -/
theorem squeezeUnderscores_noDouble :
    ∀ (l : List Char), NoDouble (squeezeUnderscores l) := by
  intro l
  induction l with
  | nil => exact List.chain'_nil
  | cons a tail ih =>
    cases tail with
    | nil => exact List.chain'_singleton a
    | cons d rest =>
      simp only [squeezeUnderscores]
      split
      · exact ih
      · rename_i hcond
        rw [NoDouble, List.chain'_cons']
        refine ⟨?_, ih⟩
        intro b hb
        by_cases ha : a = '_'
        · have hd : d ≠ '_' := fun hd => hcond ⟨ha, hd⟩
          rw [squeezeUnderscores_head_of_ne d rest hd] at hb
          cases hb
          exact fun hab => hd hab.2
        · exact fun hab => ha hab.1

/-- The collapsing step fixes lists without adjacent underscores. -/
theorem squeezeUnderscores_eq_self :
    ∀ {l : List Char}, NoDouble l → squeezeUnderscores l = l := by
  intro l h
  induction l with
  | nil => rfl
  | cons a tail ih =>
    cases tail with
    | nil => rfl
    | cons d rest =>
      rw [NoDouble, List.chain'_cons] at h
      simp only [squeezeUnderscores, if_neg h.1]
      exact congrArg (a :: ·) (ih h.2)

/-- The head of what `dropWhile` leaves fails the test. -/
theorem head?_dropWhile {α : Type} {p : α → Bool} :
    ∀ {l : List α} {c : α}, (l.dropWhile p).head? = some c → p c = false := by
  intro l
  induction l with
  | nil => intro c h; cases h
  | cons a rest ih =>
    intro c h
    by_cases hp : p a = true
    · rw [List.dropWhile_cons, if_pos hp] at h
      exact ih h
    · rw [List.dropWhile_cons, if_neg hp] at h
      cases h
      exact Bool.not_eq_true _ ▸ hp

/-- `dropWhile` fixes a list whose head fails the test. -/
theorem dropWhile_eq_self_of_head {α : Type} {p : α → Bool} {l : List α}
    (h : ∀ c, l.head? = some c → p c = false) : l.dropWhile p = l := by
  cases l with
  | nil => rfl
  | cons a rest =>
    rw [List.dropWhile_cons, if_neg]
    rw [h a rfl]
    exact Bool.false_ne_true

/-- `dropWhile` keeps the last element, unless it drops everything. -/
theorem getLast?_dropWhile {α : Type} {p : α → Bool} :
    ∀ (l : List α), l.dropWhile p = [] ∨
      (l.dropWhile p).getLast? = l.getLast? := by
  intro l
  induction l with
  | nil => left; rfl
  | cons a rest ih =>
    cases rest with
    | nil =>
      by_cases hp : p a = true
      · left; rw [List.dropWhile_cons, if_pos hp]; rfl
      · right; rw [List.dropWhile_cons, if_neg hp]
    | cons b rest2 =>
      by_cases hp : p a = true
      · rw [List.dropWhile_cons, if_pos hp]
        rcases ih with h | h
        · left; exact h
        · right; rw [h, List.getLast?_cons_cons]
      · right; rw [List.dropWhile_cons, if_neg hp]

/-- The list neither starts nor ends with a strippable character. -/
def Trimmed (l : List Char) : Prop :=
  (∀ c, l.head? = some c → stripChar c = false) ∧
    (∀ c, l.getLast? = some c → stripChar c = false)

/-- End-stripping fixes a trimmed list. -/
theorem stripEnds_eq_self {l : List Char} (h : Trimmed l) : stripEnds l = l := by
  unfold stripEnds
  rw [dropWhile_eq_self_of_head h.1]
  rw [dropWhile_eq_self_of_head fun c hc => h.2 c (List.head?_reverse l ▸ hc)]
  exact List.reverse_reverse l

/-- End-stripping produces a trimmed list. -/
theorem stripEnds_trimmed (l : List Char) : Trimmed (stripEnds l) := by
  constructor
  · intro c hc
    unfold stripEnds at hc
    rw [List.head?_reverse] at hc
    rcases getLast?_dropWhile ((l.dropWhile stripChar).reverse) (p := stripChar)
      with h | h
    · rw [h] at hc; cases hc
    · rw [h, List.getLast?_reverse] at hc
      exact head?_dropWhile hc
  · intro c hc
    unfold stripEnds at hc
    rw [List.getLast?_reverse] at hc
    exact head?_dropWhile hc

/-- End-stripping preserves the absence of adjacent underscores. -/
theorem noDouble_stripEnds {l : List Char} (h : NoDouble l) :
    NoDouble (stripEnds l) := by
  unfold stripEnds
  have h1 : NoDouble (l.dropWhile stripChar) :=
    List.Chain'.suffix h (List.dropWhile_suffix stripChar)
  have h2 : ((l.dropWhile stripChar).reverse).Chain'
      (flip fun a b => ¬(a = '_' ∧ b = '_')) :=
    List.chain'_reverse.mpr h1
  have h3 := List.Chain'.suffix h2 (List.dropWhile_suffix stripChar)
  exact List.chain'_reverse.mpr h3

/-- Every character of the sanitized output is legal. -/
theorem sanitizeChars_not_invalid {l : List Char} {c : Char}
    (h : c ∈ sanitizeChars l) : invalidChar c = false :=
  not_invalid_mem_replaceInvalid (mem_squeezeUnderscores (mem_stripEnds h))

/-- The list-level sanitization is idempotent. -/
theorem sanitizeChars_idem (l : List Char) :
    sanitizeChars (sanitizeChars l) = sanitizeChars l := by
  have h1 : replaceInvalid (sanitizeChars l) = sanitizeChars l :=
    replaceInvalid_eq_self fun c hc => sanitizeChars_not_invalid hc
  have h2 : squeezeUnderscores (sanitizeChars l) = sanitizeChars l :=
    squeezeUnderscores_eq_self
      (noDouble_stripEnds (squeezeUnderscores_noDouble (replaceInvalid l)))
  have h3 : stripEnds (sanitizeChars l) = sanitizeChars l :=
    stripEnds_eq_self (stripEnds_trimmed (squeezeUnderscores (replaceInvalid l)))
  show stripEnds (squeezeUnderscores (replaceInvalid (sanitizeChars l))) =
    sanitizeChars l
  rw [h1, h2, h3]

/-! Lemmas about the PDF extension. -/

/-- Lowercasing fixes the PDF extension itself. -/
theorem lowerChars_pdfExt : lowerChars pdfExt = pdfExt := by decide

/-- A name extended with the PDF extension passes the case-insensitive
extension test. -/
theorem endsWithPdfCI_append (l : List Char) :
    endsWithPdfCI (l ++ pdfExt) = true := by
  unfold endsWithPdfCI
  rw [decide_eq_true_eq]
  unfold lowerChars
  rw [List.map_append]
  exact lowerChars_pdfExt ▸ List.suffix_append _ _

/-- The list-level extension guarantee is idempotent. -/
theorem ensurePdfChars_idem (l : List Char) :
    ensurePdfChars (ensurePdfChars l) = ensurePdfChars l := by
  by_cases h : endsWithPdfCI l = true
  · simp [ensurePdfChars, h]
  · simp only [ensurePdfChars, Bool.not_eq_true] at h
    simp [ensurePdfChars, h, endsWithPdfCI_append]

/-- The list-level extension guarantee fixes exactly the names that already
end with the PDF extension case-insensitively. -/
theorem ensurePdfChars_eq_self_iff (l : List Char) :
    ensurePdfChars l = l ↔ endsWithPdfCI l = true := by
  constructor
  · intro h
    by_contra hn
    simp only [Bool.not_eq_true] at hn
    simp only [ensurePdfChars, hn, Bool.not_false, if_true] at h
    have hl := congrArg List.length h
    simp [pdfExt] at hl
  · intro h
    simp [ensurePdfChars, h]

/-! Lemmas about sanitizing away an all-strippable name. -/

/-- Sanitization of a string whose every character is illegal, an underscore
or a space leaves nothing. -/
theorem sanitizeChars_nil_of_strippable {l : List Char}
    (h : ∀ c ∈ l, invalidChar c = true ∨ stripChar c = true) :
    sanitizeChars l = [] := by
  have hall : ∀ c ∈ squeezeUnderscores (replaceInvalid l), stripChar c = true := by
    intro c hc
    have hc2 := mem_squeezeUnderscores hc
    unfold replaceInvalid at hc2
    rcases List.mem_map.mp hc2 with ⟨a, ha, hrep⟩
    rcases h a ha with hi | hs
    · simp only [hi, if_true] at hrep
      rw [← hrep]; decide
    · by_cases hia : invalidChar a = true
      · simp only [hia, if_true] at hrep
        rw [← hrep]; decide
      · simp only [hia, if_false] at hrep
        rw [← hrep]; exact hs
  show stripEnds _ = []
  unfold stripEnds
  rw [List.dropWhile_eq_nil_iff.mpr hall]
  rfl

/-- The base name the orchestrator sanitizes: the user-supplied output name
when it is truthy (present and nonempty), the source folder's name
otherwise, exactly as the branch in `_resolve_output_name` selects it. -/
def effectiveBase (output_name : Option String) (folderName : String) : String :=
  if optTruthy output_name then output_name.getD "" else folderName

/-- The resolver is the extension guarantee of the sanitized effective base. -/
theorem resolve_output_name_eq (output_name : Option String)
    (folderName : String) :
    resolve_output_name output_name folderName =
      ensure_pdf_extension (sanitize_filename (effectiveBase output_name folderName)) := by
  by_cases h : optTruthy output_name = true <;>
    simp [resolve_output_name, effectiveBase, h]

/-! Claim theorems about naming. -/

/-- C6: filename sanitization is idempotent: for every string `x`,
sanitizing twice equals sanitizing once, where sanitization replaces each
illegal filename character with an underscore, collapses runs of
underscores, and trims leading and trailing underscores and spaces. -/
theorem C6_sanitize_filename_idempotent (x : String) :
    sanitize_filename (sanitize_filename x) = sanitize_filename x :=
  congrArg String.mk (sanitizeChars_idem x.data)

/-- C10: `ensure_pdf_extension` is idempotent, and it fixes a string exactly
when the string already ends with the PDF extension under case-insensitive
comparison. -/
theorem C10_ensure_pdf_extension_idem_and_fixed (s : String) :
    ensure_pdf_extension (ensure_pdf_extension s) = ensure_pdf_extension s ∧
      (ensure_pdf_extension s = s ↔ pdfExt <:+ lowerChars s.data) := by
  refine ⟨congrArg String.mk (ensurePdfChars_idem s.data), ?_, ?_⟩
  · intro h
    have hd : ensurePdfChars s.data = s.data := congrArg String.data h
    have := (ensurePdfChars_eq_self_iff s.data).mp hd
    unfold endsWithPdfCI at this
    exact of_decide_eq_true this
  · intro h
    show String.mk (ensurePdfChars s.data) = s
    rw [(ensurePdfChars_eq_self_iff s.data).mpr (by unfold endsWithPdfCI; exact decide_eq_true h)]

/-- C9: if the base name (the user-supplied output name when truthy,
otherwise the source folder's name) is empty or consists only of characters
that sanitization replaces or strips — illegal filename characters,
underscores and spaces — then the sanitized base is the empty string and
the resolved output filename is exactly the bare extension. -/
theorem C9_empty_base_gives_bare_extension (output_name : Option String)
    (folderName : String)
    (h : ∀ c ∈ (effectiveBase output_name folderName).data,
      invalidChar c = true ∨ stripChar c = true) :
    sanitize_filename (effectiveBase output_name folderName) = "" ∧
      resolve_output_name output_name folderName = ".pdf" := by
  have hs : sanitize_filename (effectiveBase output_name folderName) = "" :=
    congrArg String.mk (sanitizeChars_nil_of_strippable h)
  refine ⟨hs, ?_⟩
  rw [resolve_output_name_eq, hs]
  decide

/-- C9 witness: a concrete all-strippable user-supplied name resolves to the
bare extension. -/
theorem C9_witness :
    (∀ c ∈ (effectiveBase (some "<>//") "MyDocs").data,
      invalidChar c = true ∨ stripChar c = true) ∧
      resolve_output_name (some "<>//") "MyDocs" = ".pdf" :=
  ⟨by decide, (C9_empty_base_gives_bare_extension (some "<>//") "MyDocs" (by decide)).2⟩

/-- C5: the user-supplied output name of the letters of the word Report,
with no collision at the destination, resolves to exactly that word followed
by the PDF extension: sanitization leaves it unchanged, the extension is
appended because the case-insensitive test fails, and the collision step
returns the path unchanged. -/
theorem C5_report_resolves (folderName : String) (existsAt : List Char → Bool)
    (now : Timestamp) (hno : existsAt "Report.pdf".data = false) :
    sanitize_filename "Report" = "Report" ∧
      endsWithPdfCI "Report".data = false ∧
      ensure_pdf_extension "Report" = "Report.pdf" ∧
      resolve_output_name (some "Report") folderName = "Report.pdf" ∧
      ensure_unique_output existsAt now "Report.pdf".data = "Report.pdf".data := by
  refine ⟨by decide, by decide, by decide, ?_, ?_⟩
  · have ht : optTruthy (some "Report") = true := by decide
    simp only [resolve_output_name, ht, if_true]
    decide
  · simp [ensure_unique_output, hno]

/-- C5 witness: the resolution evaluated with a destination where nothing
exists. -/
theorem C5_witness :
    ((fun _ : List Char => false) "Report.pdf".data = false) ∧
      resolve_output_name (some "Report") "MyDocs" = "Report.pdf" ∧
      ensure_unique_output (fun _ => false) ⟨2025, 1, 2, 3, 4, 5⟩
        "Report.pdf".data = "Report.pdf".data := by
  have h := C5_report_resolves "MyDocs" (fun _ => false) ⟨2025, 1, 2, 3, 4, 5⟩ rfl
  exact ⟨rfl, h.2.2.2.1, h.2.2.2.2⟩

/-! Lemmas about the timestamp format. -/

/-- A digit character below ten renders as a decimal digit. -/
theorem digitChar_isDigit {m : Nat} (h : m < 10) :
    (Nat.digitChar m).isDigit = true := by
  interval_cases m <;> rfl

/-- Two-digit fields are two decimal digits. -/
theorem pad2_spec (n : Nat) :
    (pad2 n).length = 2 ∧ ∀ c ∈ pad2 n, c.isDigit = true := by
  refine ⟨rfl, ?_⟩
  intro c hc
  rcases List.mem_cons.mp hc with h | hc
  · rw [h]; exact digitChar_isDigit (Nat.mod_lt _ (by omega))
  rcases List.mem_cons.mp hc with h | hc
  · rw [h]; exact digitChar_isDigit (Nat.mod_lt _ (by omega))
  · cases hc

/-- Four-digit fields are four decimal digits. -/
theorem pad4_spec (n : Nat) :
    (pad4 n).length = 4 ∧ ∀ c ∈ pad4 n, c.isDigit = true := by
  refine ⟨rfl, ?_⟩
  intro c hc
  simp only [pad4, List.mem_cons, List.not_mem_nil, or_false] at hc
  rcases hc with h | h | h | h <;>
    (rw [h]; exact digitChar_isDigit (Nat.mod_lt _ (by omega)))

/-- The rendered timestamp splits as eight digits, an underscore, and six
digits. -/
theorem fmtTimestamp_split (t : Timestamp) :
    ∃ d8 d6 : List Char,
      fmtTimestamp t = d8 ++ ['_'] ++ d6 ∧
        d8.length = 8 ∧ (∀ c ∈ d8, c.isDigit = true) ∧
        d6.length = 6 ∧ (∀ c ∈ d6, c.isDigit = true) := by
  refine ⟨pad4 t.year ++ pad2 t.month ++ pad2 t.day,
    pad2 t.hour ++ pad2 t.minute ++ pad2 t.second, ?_, ?_, ?_, ?_, ?_⟩
  · simp [fmtTimestamp]
  · simp [(pad4_spec t.year).1, (pad2_spec t.month).1, (pad2_spec t.day).1]
  · intro c hc
    simp only [List.mem_append] at hc
    rcases hc with (h | h) | h
    · exact (pad4_spec t.year).2 c h
    · exact (pad2_spec t.month).2 c h
    · exact (pad2_spec t.day).2 c h
  · simp [(pad2_spec t.hour).1, (pad2_spec t.minute).1, (pad2_spec t.second).1]
  · intro c hc
    simp only [List.mem_append] at hc
    rcases hc with (h | h) | h
    · exact (pad2_spec t.hour).2 c h
    · exact (pad2_spec t.minute).2 c h
    · exact (pad2_spec t.second).2 c h

/-! Claim theorems about collision avoidance. -/

/-- C4 counterexample: the claim that the timestamp is inserted between the
stem and the path's extension fails on the reachable destination name with
an uppercase PDF extension; the code always appends the lowercase constant
extension, so the original extension is not preserved. -/
theorem C4_counterexample :
    ensure_unique_output (fun _ => true) ⟨2025, 1, 2, 3, 4, 5⟩
        "Report.PDF".data ≠
      specInsertTimestamp ⟨2025, 1, 2, 3, 4, 5⟩ "Report.PDF".data ∧
    ensure_unique_output (fun _ => true) ⟨2025, 1, 2, 3, 4, 5⟩
        "Report.PDF".data = "Report_20250102_030405.pdf".data ∧
    specInsertTimestamp ⟨2025, 1, 2, 3, 4, 5⟩ "Report.PDF".data =
      "Report_20250102_030405.PDF".data := by
  exact ⟨by decide, by decide, by decide⟩

/-- C4 (amended): for every destination path, when the path does not exist
it is returned unchanged; when it exists the name becomes the stem, an
underscore, the timestamp, and the lowercase PDF extension — which inserts
the timestamp between stem and extension whenever the path's own extension
is exactly the lowercase PDF extension, and in particular an existing
Report.pdf resolves to Report underscore eight digits underscore six digits
dot pdf; the existence check happens exactly once, on the original path
only, with no retry on the renamed path. -/
theorem C4_ensure_unique_output (existsAt : List Char → Bool) (now : Timestamp)
    (path : List Char) :
    (existsAt path = false → ensure_unique_output existsAt now path = path) ∧
    (existsAt path = true →
      ensure_unique_output existsAt now path =
        stemOf path ++ ['_'] ++ fmtTimestamp now ++ pdfExt) ∧
    (existsAt path = true → suffixOf path = pdfExt →
      ensure_unique_output existsAt now path =
        stemOf path ++ ['_'] ++ fmtTimestamp now ++ suffixOf path) ∧
    (∀ g : List Char → Bool, g path = existsAt path →
      ensure_unique_output g now path = ensure_unique_output existsAt now path) ∧
    (existsAt "Report.pdf".data = true → ∃ d8 d6 : List Char,
      ensure_unique_output existsAt now "Report.pdf".data =
        "Report_".data ++ d8 ++ ['_'] ++ d6 ++ ".pdf".data ∧
        d8.length = 8 ∧ (∀ c ∈ d8, c.isDigit = true) ∧
        d6.length = 6 ∧ (∀ c ∈ d6, c.isDigit = true)) := by
  refine ⟨?_, ?_, ?_, ?_, ?_⟩
  · intro h; simp [ensure_unique_output, h]
  · intro h; simp [ensure_unique_output, h]
  · intro h hsuf
    rw [hsuf]
    simp [ensure_unique_output, h]
  · intro g hg
    unfold ensure_unique_output
    rw [hg]
  · intro h
    rcases fmtTimestamp_split now with ⟨d8, d6, hsplit, h8, hd8, h6, hd6⟩
    refine ⟨d8, d6, ?_, h8, hd8, h6, hd6⟩
    simp only [ensure_unique_output, h, Bool.not_true, Bool.false_eq_true,
      if_false, hsplit]
    have hstem : stemOf "Report.pdf".data = "Report".data := by decide
    rw [hstem]
    simp [pdfExt]

/-- C4 witness: the amended theorem applied to an existing lowercase name
and to a missing name. -/
theorem C4_witness :
    ensure_unique_output (fun _ => true) ⟨2025, 1, 2, 3, 4, 5⟩
        "Report.pdf".data = "Report_20250102_030405.pdf".data ∧
      ensure_unique_output (fun _ => false) ⟨2025, 1, 2, 3, 4, 5⟩
        "Report.pdf".data = "Report.pdf".data := by
  have h1 := (C4_ensure_unique_output (fun _ => true) ⟨2025, 1, 2, 3, 4, 5⟩
    "Report.pdf".data).2.1 rfl
  have h2 := (C4_ensure_unique_output (fun _ => false) ⟨2025, 1, 2, 3, 4, 5⟩
    "Report.pdf".data).1 rfl
  exact ⟨by rw [h1]; decide, h2⟩

/-! Lemmas about the merge loop. -/

/-- Closed form of the merge fold from an arbitrary accumulator. -/
theorem foldl_mergeStep (files : List InputFile) (acc : MergeResult) :
    files.foldl mergeStep acc =
      ⟨acc.outputPages ++ (files.filterMap (·.pages)).flatten,
        acc.total_pages + ((files.filterMap (·.pages)).map List.length).sum,
        acc.errors ++ (files.filter (fun f => f.pages.isNone)).map (·.name)⟩ := by
  induction files generalizing acc with
  | nil => simp
  | cons f rest ih =>
    cases hp : f.pages with
    | some ps =>
      rw [List.foldl_cons, ih]
      simp [mergeStep, hp, Nat.add_assoc]
    | none =>
      rw [List.foldl_cons, ih]
      simp [mergeStep, hp]

/-- Closed form of the merge engine: output pages are the concatenation, in
input order, of the pages of the readable files; the total counts exactly
those pages; the error reports name exactly the unreadable files in order. -/
theorem mergeFiles_spec (files : List InputFile) :
    mergeFiles files =
      ⟨(files.filterMap (·.pages)).flatten,
        ((files.filterMap (·.pages)).map List.length).sum,
        (files.filter (fun f => f.pages.isNone)).map (·.name)⟩ := by
  unfold mergeFiles
  rw [foldl_mergeStep]
  simp

/-! Claim theorems about merging. -/

/-- C1: per-file failures are caught and reported individually and the merge
continues: for every ordered input sequence the total page count is the sum
of the page counts of exactly the readable files, the output contains every
page of every readable file in input order then in-file order, failed files
contribute nothing but one error report each, and in particular a three-page
file, a two-page file and a corrupt file yield a total of five, the pages of
the first two files in order, one error naming the corrupt file, and an
overall run that exits successfully. -/
theorem C1_merge_partial_failure_tolerant (files : List InputFile) :
    (mergeFiles files).outputPages = (files.filterMap (·.pages)).flatten ∧
    (mergeFiles files).total_pages =
      ((files.filterMap (·.pages)).map List.length).sum ∧
    (mergeFiles files).errors =
      (files.filter (fun f => f.pages.isNone)).map (·.name) ∧
    mergeFiles [⟨"A.pdf", some [1, 2, 3]⟩, ⟨"B.pdf", some [4, 5]⟩,
        ⟨"C.pdf", none⟩] =
      ⟨[1, 2, 3, 4, 5], 5, ["C.pdf"]⟩ ∧
    runExitCode (.ok (some (mergeFiles files))) = 0 := by
  rw [mergeFiles_spec files]
  exact ⟨rfl, rfl, rfl, by decide, rfl⟩

/-! Lemmas about the preview. -/

/-- The preview loop collects the names of the first files up to the limit. -/
theorem limit_preview_eq_take :
    ∀ (files : List FoundEntry) (limit : Nat),
      limit_preview files limit = (files.take limit).map (·.name) := by
  intro files
  induction files with
  | nil => intro limit; cases limit <;> rfl
  | cons f rest ih =>
    intro limit
    cases limit with
    | zero => rfl
    | succ k =>
      rw [List.take_succ_cons, List.map_cons]
      exact congrArg (f.name :: ·) (ih k)

/-- C8: the preview contains at most the first ten file names in order, the
more-files suffix is emitted exactly when more than ten files were
discovered, and the preview never limits the merge: the full discovered list
is what the merge engine receives, so the merged total counts the pages of
all readable discovered files, not only previewed ones. -/
theorem C8_preview_is_cosmetic (entries : List FoundEntry)
    (content : FoundEntry → Option (List Nat)) :
    (orchestrate entries content).preview =
      (entries.take MAX_PREVIEW_FILES).map (·.name) ∧
    (orchestrate entries content).preview.length ≤ MAX_PREVIEW_FILES ∧
    ((orchestrate entries content).showsMore = true ↔
      MAX_PREVIEW_FILES < entries.length) ∧
    (orchestrate entries content).moreCount =
      entries.length - MAX_PREVIEW_FILES ∧
    (orchestrate entries content).mergeInput =
      entries.map (fun e => ⟨e.name, content e⟩) ∧
    (orchestrate entries content).mergeInput.length = entries.length := by
  refine ⟨limit_preview_eq_take entries MAX_PREVIEW_FILES, ?_, ?_, rfl, rfl, ?_⟩
  · rw [show (orchestrate entries content).preview =
      limit_preview entries MAX_PREVIEW_FILES from rfl]
    rw [limit_preview_eq_take, List.length_map, List.length_take]
    exact min_le_left _ _
  · simp [orchestrate]
  · exact List.length_map _ _

/-! Claim theorems about exit codes. -/

/-- C3 counterexample: the interrupt handler of the legacy standalone script
exits with code 0 on a keyboard interrupt, not 1 as the claim states for
every invocation. -/
theorem C3_counterexample :
    legacyProcessExit LegacyTermination.interrupted = 0 ∧
      legacyProcessExit LegacyTermination.interrupted ≠ 1 := by
  exact ⟨rfl, by decide⟩

/-- C3 (amended): `PdfMergerApp.run` returns 0 on a successful merge and on
the nothing-to-merge outcome and 1 on validation failure, runtime failure,
keyboard interrupt, or unexpected error; the legacy standalone script exits
with the same codes when `main` runs to completion, but its interrupt
handler exits with 0 on a keyboard interrupt, not 1. -/
theorem C3_exit_codes (outcome : MergeResult) (files : List InputFile)
    (f : InputFile) :
    runExitCode (.ok (some outcome)) = 0 ∧
    runExitCode (.ok none) = 0 ∧
    runExitCode (.error .fileNotFound) = 1 ∧
    runExitCode (.error .notADirectory) = 1 ∧
    runExitCode (.error .runtimeError) = 1 ∧
    runExitCode (.error .keyboardInterrupt) = 1 ∧
    runExitCode (.error .unexpected) = 1 ∧
    legacyMainExit false true files true = 1 ∧
    legacyMainExit true false files true = 1 ∧
    legacyMainExit true true [] true = 0 ∧
    legacyMainExit true true (f :: files) true = 0 ∧
    legacyMainExit true true (f :: files) false = 1 ∧
    legacyProcessExit (.normal (legacyMainExit true true files true)) =
      legacyMainExit true true files true ∧
    legacyProcessExit .interrupted = 0 ∧
    legacyProcessExit .unexpectedError = 1 := by
  refine ⟨rfl, rfl, rfl, rfl, rfl, rfl, rfl, rfl, rfl, rfl, ?_, ?_, rfl, rfl, rfl⟩
  · simp [legacyMainExit]
  · simp [legacyMainExit]

/-! Lemmas about discovery. -/

/-- The regular files among the direct children whose name carries the PDF
extension: what the claim describes the flat scan to return. -/
def flatPdfFiles (root : List FSNode) : List FoundEntry :=
  (root.map childEntry).filter fun e => e.isFile && matchesPdfName e.name

/-- A concrete tree with a PDF file at depth zero and one at depth two. -/
def exampleTree : List FSNode :=
  [.file "a.pdf", .dir "s" [.dir "t" [.file "deep.pdf"]]]

mutual

/-- Entries below a node keep the ancestor directory list as a prefix. -/
theorem descNode_dirs_extend (pre : List String) :
    ∀ (n : FSNode) (e : FoundEntry), e ∈ descNode pre n → pre <+: e.dirs
  | .file s, e, h => by
    simp only [descNode, List.mem_singleton] at h
    subst h
    exact List.prefix_refl pre
  | .dir s cs, e, h => by
    simp only [descNode, List.mem_cons] at h
    rcases h with h | h
    · subst h
      exact List.prefix_refl pre
    · exact List.IsPrefix.trans (List.prefix_append pre [s])
        (descList_dirs_extend (pre ++ [s]) cs e h)

/-- Entries below a list of nodes keep the ancestor directory list as a
prefix. -/
theorem descList_dirs_extend (pre : List String) :
    ∀ (ns : List FSNode) (e : FoundEntry), e ∈ descList pre ns → pre <+: e.dirs
  | [], _, h => by simp [descList] at h
  | x :: xs, e, h => by
    simp only [descList] at h
    rcases List.mem_append.mp h with h | h
    · exact descNode_dirs_extend pre x e h
    · exact descList_dirs_extend pre xs e h

end

/-- A found entry is a direct-child entry exactly when it is a descendant
entry with an empty directory list. -/
theorem mem_childEntries {root : List FSNode} {e : FoundEntry} :
    e ∈ root.map childEntry ↔ e ∈ descList [] root ∧ e.dirs = [] := by
  induction root with
  | nil =>
    constructor
    · intro h; cases h
    · intro h; cases h.1
  | cons x xs ih =>
    constructor
    · intro h
      rcases List.mem_cons.mp h with h | h
      · subst h
        refine ⟨List.mem_append_left _ ?_, ?_⟩
        · cases x with
          | file s => exact List.mem_singleton_self _
          | dir s cs => exact List.mem_cons_self _ _
        · cases x <;> rfl
      · rcases ih.mp h with ⟨h1, h2⟩
        exact ⟨List.mem_append_right _ h1, h2⟩
    · rintro ⟨h, hd⟩
      have h2 : e ∈ descNode [] x ∨ e ∈ descList [] xs := List.mem_append.mp h
      rcases h2 with h2 | h2
      · cases x with
        | file s =>
          have he : e = childEntry (FSNode.file s) := List.mem_singleton.mp h2
          exact he ▸ List.mem_cons_self _ _
        | dir s cs =>
          rcases List.mem_cons.mp h2 with h3 | h3
          · exact h3 ▸ List.mem_cons_self _ _
          · exfalso
            have hp := descList_dirs_extend ([] ++ [s]) cs e h3
            rw [hd] at hp
            simp at hp
      · exact List.mem_cons_of_mem _ (ih.mpr ⟨h2, hd⟩)

/-- Membership in the flat glob. -/
theorem mem_globFlat {root : List FSNode} {e : FoundEntry} :
    e ∈ globFlat root ↔
      (e ∈ descList [] root ∧ e.dirs = []) ∧ matchesPdfName e.name = true := by
  unfold globFlat
  rw [List.mem_filter, mem_childEntries]

/-- Membership in the recursive glob. -/
theorem mem_globRec {root : List FSNode} {e : FoundEntry} :
    e ∈ globRec root ↔ e ∈ descList [] root ∧ matchesPdfName e.name = true := by
  unfold globRec
  exact List.mem_filter

/-- Membership in the non-recursive scan. -/
theorem mem_scanTree_false {root : List FSNode} {e : FoundEntry} :
    e ∈ scanTree false root ↔ e ∈ globFlat root ∧ e.isFile = true := by
  unfold scanTree
  rw [List.mem_filter, (List.perm_insertionSort nameLe _).mem_iff]
  exact Iff.rfl

/-- Membership in the recursive scan. -/
theorem mem_scanTree_true {root : List FSNode} {e : FoundEntry} :
    e ∈ scanTree true root ↔ e ∈ globRec root ∧ e.isFile = true := by
  unfold scanTree
  rw [List.mem_filter, (List.perm_insertionSort nameLe _).mem_iff]
  exact Iff.rfl

/-! Claim theorems about discovery. -/

/-- C2: for every folder, the non-recursive scan returns exactly the regular
direct children whose extension matches the PDF extension — as a permutation
of them with equal length — sorted case-insensitively by filename, and it
returns the empty list rather than an error when there is no match. -/
theorem C2_scan_returns_sorted_pdfs (root : List FSNode) :
    (scanTree false root).Perm (flatPdfFiles root) ∧
      List.Sorted nameLe (scanTree false root) ∧
      (scanTree false root).length = (flatPdfFiles root).length ∧
      (flatPdfFiles root = [] → scanTree false root = []) := by
  have hperm : (scanTree false root).Perm (flatPdfFiles root) := by
    have h1 := List.perm_insertionSort nameLe (globFlat root)
    have h2 := List.Perm.filter (fun e => e.isFile) h1
    rw [show List.filter (fun e => e.isFile) (globFlat root) =
        flatPdfFiles root from by
      unfold globFlat flatPdfFiles
      rw [List.filter_filter]] at h2
    exact h2
  refine ⟨hperm, ?_, hperm.length_eq, fun hnil => (hnil ▸ hperm).eq_nil⟩
  exact List.Pairwise.sublist (List.filter_sublist _)
    (List.sorted_insertionSort nameLe (globFlat root))

/-- C2 witness: a folder holding a single non-PDF file has no matches and
the scan returns the empty list rather than failing. -/
theorem C2_witness :
    flatPdfFiles [FSNode.file "notes.txt"] = [] ∧
      scanTree false [FSNode.file "notes.txt"] = [] :=
  ⟨by decide,
    (C2_scan_returns_sorted_pdfs [FSNode.file "notes.txt"]).2.2.2 (by decide)⟩

/-- C7: recursive discovery returns exactly the matching regular files at
every depth and non-recursive discovery exactly those among the direct
children; in particular, on a tree with a PDF at depth zero and a PDF at
depth two, the recursive scan contains both and the non-recursive scan
contains only the depth-zero one. -/
theorem C7_recursive_vs_direct (root : List FSNode) (e : FoundEntry) :
    (e ∈ scanTree true root ↔
      e ∈ descList [] root ∧ matchesPdfName e.name = true ∧ e.isFile = true) ∧
    (e ∈ scanTree false root ↔
      e ∈ descList [] root ∧ e.dirs = [] ∧ matchesPdfName e.name = true ∧
        e.isFile = true) ∧
    ((⟨[], "a.pdf", true⟩ : FoundEntry) ∈ scanTree true exampleTree) ∧
    ((⟨["s", "t"], "deep.pdf", true⟩ : FoundEntry) ∈ scanTree true exampleTree) ∧
    ((⟨[], "a.pdf", true⟩ : FoundEntry) ∈ scanTree false exampleTree) ∧
    ((⟨["s", "t"], "deep.pdf", true⟩ : FoundEntry) ∉ scanTree false exampleTree) := by
  refine ⟨?_, ?_, by decide, by decide, by decide, by decide⟩
  · rw [mem_scanTree_true, mem_globRec]
    tauto
  · rw [mem_scanTree_false, mem_globFlat]
    tauto

end PdfMerger
